import Mathlib

/-!
Shallow embedding of the batching/grouping core of `tf-quant-finance`
(files `equity_instruments/utils.py` and
`equity_instruments/american_option/proto_utils.py`), together with
theorems settling the specification claims about it.

Python `hash` on strings and `hashlib.md5` are seed-dependent or
cryptographic primitives; they are modelled as explicit function
parameters (`hsh : String → Int`, `md5 : String → String`).  Python
dictionaries are modelled as insertion-ordered association lists (Python
3.7+ semantics); indexing a dictionary with a possibly missing key is
fallible and returns `Option`.
-/

namespace TFQ

/-- First-occurrence deduplication: the distinct elements of `xs`, each at
the position of its first occurrence.  Helper used to model the dedup step
of the spec (§4.3). -/
def firstOcc {α : Type} [DecidableEq α] : List α → List α
  | [] => []
  | x :: xs => x :: (firstOcc xs).filter (fun y => y ≠ x)

/-- A Python dictionary built from a list of key/value pairs (later pairs
overwrite earlier ones, as in a Python dict comprehension), viewed as a
fallible lookup function. -/
def pyDict {α β : Type} [DecidableEq α] (ps : List (α × β)) : α → Option β :=
  fun k => (ps.reverse.find? (fun p => decide (p.1 = k))).map Prod.snd

/-- Evaluates a fallible function on every element of a list, failing if any
single evaluation fails.  Models a Python list comprehension whose body may
raise `KeyError`. -/
def mapOpt {α β : Type} (f : α → Option β) : List α → Option (List β)
  | [] => some []
  | x :: xs => (f x).bind (fun y => (mapOpt f xs).map (fun ys => y :: ys))

/-- `tf.gather` on one-dimensional data: `result[i] = xs[mask[i]]`.  An
out-of-range index is an error (TensorFlow raises `InvalidArgumentError`),
hence the `Option`. -/
def gather {α : Type} (xs : List α) (mask : List Nat) : Option (List α) :=
  mapOpt (fun i => xs.get? i) mask

/-- Modelled from the spec: `cashflow_streams.to_list` is not under `src/`;
it converts its argument to a list, hence is the identity on a list of
equity names. -/
def to_list (xs : List String) : List String := xs

/-- Modelled from the spec: `cashflow_streams.create_mask` is not under
`src/`.  Spec §4.3 (dedup step): produce the distinct values in
first-occurrence order together with `mask[i] =` position of `xs[i]` in
that list.  Mirrors the Python return shape: the mask, the dictionary
mapping each index `0 ≤ i < n` to the i-th unique value (modelled as the
list of unique values, indexed positionally), and the number of unique
values. -/
def create_mask (xs : List Int) : List Nat × List Int × Nat :=
  let unique := firstOcc xs
  (xs.map (fun x => unique.indexOf x), unique, unique.length)

/-- `utils.process_equities`: deduplicates the equity names via an
intermediate table of Python hashes and `create_mask`, returning the unique
names and the integer mask.  The Python string hash is the parameter
`hsh`; the two dictionary lookups (`mask_map[i]`, `hash_equities[...]`)
may raise `KeyError` in Python, hence the `Option` result. -/
def process_equities (hsh : String → Int) (equities : List String) :
    Option (List String × List Nat) :=
  let equity_list := to_list equities
  let equity_hash := equity_list.map hsh
  let hash_equities := pyDict (equity_list.map (fun e => (hsh e, e)))
  let masked := create_mask equity_hash
  let mask := masked.1
  let mask_map := masked.2.1
  let num_unique_equities := masked.2.2
  (mapOpt (fun i => (mask_map.get? i).bind hash_equities)
      (List.range num_unique_equities)).map
    (fun equity_types => (equity_types, mask))

/-- A calendar date, as carried by the `expiry_date` field of the proto. -/
structure Date where
  year : Int
  month : Int
  day : Int
deriving DecidableEq, Repr

/-- Proto metadata: instrument name and instrument-type tag. -/
structure Metadata where
  id : String
  instrument_type : String
deriving DecidableEq, Repr

/-- A decimal-valued proto field (`Decimal` message: units and nano part).
The conversion to a floating-point number is the out-of-scope collaborator
`instrument_utils.decimal_to_double`; it is modelled exactly over `ℚ`. -/
structure Decimal where
  units : Int
  nanos : Int
deriving DecidableEq, Repr

/-- `instrument_utils.decimal_to_double`, modelled without rounding. -/
def decimal_to_double (d : Decimal) : ℚ := (d.units : ℚ) + (d.nanos : ℚ) / 1000000000

/-- A resolved currency object (`currencies.from_proto_value`), opaque to
the grouping layer. -/
structure Currency where
  code : Nat
deriving DecidableEq, Repr

/-- `currencies.from_proto_value`: resolves a currency proto enum value. -/
def from_proto_value (n : Nat) : Currency := ⟨n⟩

/-- A resolved business-day-convention object
(`business_days.convention_from_proto_value`), opaque to the grouping
layer. -/
structure BdConvention where
  code : Nat
deriving DecidableEq, Repr

/-- `business_days.convention_from_proto_value`. -/
def convention_from_proto_value (n : Nat) : BdConvention := ⟨n⟩

/-- A resolved holiday-calendar object
(`business_days.holiday_from_proto_value`), opaque to the grouping layer. -/
structure Calendar where
  code : Nat
deriving DecidableEq, Repr

/-- `business_days.holiday_from_proto_value`. -/
def holiday_from_proto_value (n : Nat) : Calendar := ⟨n⟩

/-- The `AmericanEquityOption` proto message, with enum fields carried as
their proto integer values. -/
structure AmericanEquityOption where
  short_position : Bool
  currency : Nat
  expiry_date : Date
  equity : String
  contract_amount : Decimal
  business_day_convention : Nat
  strike : Decimal
  bank_holidays : Nat
  settlement_days : Nat
  is_call_option : Bool
  metadata : Metadata
deriving DecidableEq, Repr

instance : Inhabited AmericanEquityOption :=
  ⟨{ short_position := false, currency := 0, expiry_date := ⟨0, 0, 0⟩,
     equity := "", contract_amount := ⟨0, 0⟩, business_day_convention := 0,
     strike := ⟨0, 0⟩, bank_holidays := 0, settlement_days := 0,
     is_call_option := false, metadata := ⟨"", ""⟩ }⟩

/-- `json.dumps` on the tuple `(bank_holidays, business_day_convention)` of
two integers: the canonical serialization hashed by `_hasher`. -/
def json_dumps (obj : Nat × Nat) : String :=
  "[" ++ toString obj.1 ++ ", " ++ toString obj.2 ++ "]"

/-- `proto_utils._hasher`: the MD5 hex digest of the JSON serialization of
`obj`.  The digest itself is the abstract parameter `md5`. -/
def _hasher (md5 : String → String) (obj : Nat × Nat) : String :=
  md5 (json_dumps obj)

/-- `proto_utils._get_hash`: hash key for the batching strategy, computed
from the tuple `(bank_holidays, business_day_convention)`, paired with the
resolved currency. -/
def _get_hash (md5 : String → String) (p : AmericanEquityOption) :
    String × Currency :=
  (_hasher md5 (p.bank_holidays, p.business_day_convention),
   from_proto_value p.currency)

/-- The fingerprint component of `_get_hash`. -/
def hkey (md5 : String → String) (p : AmericanEquityOption) : String :=
  (_get_hash md5 p).1

/-- One step of the `group_protos` loop: append the option to its group, or
open a new group at the end (Python dicts preserve insertion order). -/
def groupStep (md5 : String → String)
    (grouped : List (String × List AmericanEquityOption))
    (p : AmericanEquityOption) : List (String × List AmericanEquityOption) :=
  let h := hkey md5 p
  if (grouped.find? (fun kv => decide (kv.1 = h))).isSome then
    grouped.map (fun kv => if kv.1 = h then (kv.1, kv.2 ++ [p]) else kv)
  else
    grouped ++ [(h, [p])]

/-- `proto_utils.group_protos`: a dictionary, keyed by fingerprint, of the
input protos grouped in input order.  The unused `american_option_config`
argument is deleted by the source and therefore omitted. -/
def group_protos (md5 : String → String)
    (proto_list : List AmericanEquityOption) :
    List (String × List AmericanEquityOption) :=
  proto_list.foldl (groupStep md5) []

/-- The per-fingerprint dictionary built by `from_protos`: group-level
fields captured once from the first record, and per-record parallel
arrays. -/
structure BatchGroup where
  short_position : List Bool
  currency : Currency
  expiry_date : List (List Int)
  equity : List String
  contract_amount : List ℚ
  business_day_convention : BdConvention
  calendar : Calendar
  strike : List ℚ
  is_call_option : List Bool
  settlement_days : List Nat
  american_option_config : Option Unit
  batch_names : List (List String)
deriving DecidableEq, Repr

/-- The fresh group created by `from_protos` on a fingerprint's first
occurrence. -/
def newGroup (cfg : Option Unit) (p : AmericanEquityOption) : BatchGroup :=
  { short_position := [p.short_position]
    currency := from_proto_value p.currency
    expiry_date := [[p.expiry_date.year, p.expiry_date.month, p.expiry_date.day]]
    equity := [p.equity]
    contract_amount := [decimal_to_double p.contract_amount]
    business_day_convention := convention_from_proto_value p.business_day_convention
    calendar := holiday_from_proto_value p.bank_holidays
    strike := [decimal_to_double p.strike]
    is_call_option := [p.is_call_option]
    settlement_days := [p.settlement_days]
    american_option_config := cfg
    batch_names := [[p.metadata.id, p.metadata.instrument_type]] }

/-- The in-place update `from_protos` performs on a fingerprint's later
occurrences: the eight per-record arrays are extended, the group-level
fields (currency, convention, calendar, config) are left untouched. -/
def appendToGroup (g : BatchGroup) (p : AmericanEquityOption) : BatchGroup :=
  { g with
    short_position := g.short_position ++ [p.short_position]
    expiry_date := g.expiry_date ++
      [[p.expiry_date.year, p.expiry_date.month, p.expiry_date.day]]
    equity := g.equity ++ [p.equity]
    contract_amount := g.contract_amount ++ [decimal_to_double p.contract_amount]
    strike := g.strike ++ [decimal_to_double p.strike]
    is_call_option := g.is_call_option ++ [p.is_call_option]
    settlement_days := g.settlement_days ++ [p.settlement_days]
    batch_names := g.batch_names ++ [[p.metadata.id, p.metadata.instrument_type]] }

/-- One step of the `from_protos` loop. -/
def fromProtosStep (md5 : String → String) (cfg : Option Unit)
    (prepare_fras : List (String × BatchGroup)) (p : AmericanEquityOption) :
    List (String × BatchGroup) :=
  let h := hkey md5 p
  if (prepare_fras.find? (fun kv => decide (kv.1 = h))).isSome then
    prepare_fras.map (fun kv => if kv.1 = h then (kv.1, appendToGroup kv.2 p) else kv)
  else
    prepare_fras ++ [(h, newGroup cfg p)]

/-- `proto_utils.from_protos`: a dictionary, keyed by fingerprint, of
preprocessed batch data in field-of-arrays layout. -/
def from_protos (md5 : String → String) (cfg : Option Unit)
    (proto_list : List AmericanEquityOption) : List (String × BatchGroup) :=
  proto_list.foldl (fromProtosStep md5 cfg) []

/-- The volatility-surface object returned by the market-data provider for
a list of equity names: parallel per-key node arrays (expiry-date
ordinals, strikes, volatilities) and a day-count convention. -/
structure VolsProvider where
  node_expiries : List Int
  node_strikes : List ℚ
  node_volatilities : List ℚ
  daycount_convention : Nat
deriving DecidableEq, Repr

/-- The processed-market-data context: a valuation date and the
volatility-surface query. -/
structure ProcessedMarketData where
  date : Date
  volatility_surface : List String → VolsProvider

/-- The `VolatilitySurface` object built by `get_vol_surface`, recording
its constructor arguments. -/
structure VolatilitySurface where
  valuation_date : Date
  expiries : List Date
  strikes : List ℚ
  volatilities : List ℚ
  daycount_convention : Nat
deriving DecidableEq, Repr

/-- `dateslib.dates_from_ordinals`, an out-of-scope collaborator: the
elementwise conversion of ordinals back to dates, with the single-ordinal
conversion abstract (`dfo`). -/
def dates_from_ordinals (dfo : Int → Date) (xs : List Int) : List Date :=
  xs.map dfo

/-- `utils.get_vol_surface`: queries the market for the node arrays of the
unique equities, gathers each array through the integer mask, and wraps
the result with the market's valuation date (`market.date`). -/
def get_vol_surface (dfo : Int → Date) (equity_types : List String)
    (market : ProcessedMarketData) (mask : List Nat) :
    Option VolatilitySurface :=
  let vols := market.volatility_surface equity_types
  let expiries := vols.node_expiries
  let strikes := vols.node_strikes
  let volatilities := vols.node_volatilities
  (gather strikes mask).bind (fun prepare_strikes =>
    (gather volatilities mask).bind (fun prepare_vols =>
      (gather expiries mask).map (fun gathered_expiries =>
        let prepare_expiries := dates_from_ordinals dfo gathered_expiries
        { valuation_date := market.date
          expiries := prepare_expiries
          strikes := prepare_strikes
          volatilities := prepare_vols
          daycount_convention := vols.daycount_convention })))

/-- Reference description of the `BatchGroup` that `from_protos` builds for
a fingerprint whose records (in input order) are `recs`: group-level fields
resolved from the first record, per-record arrays mapped over `recs`. -/
def batchOf (cfg : Option Unit) (recs : List AmericanEquityOption) : BatchGroup :=
  { short_position := recs.map (fun p => p.short_position)
    currency := from_proto_value (recs.headD default).currency
    expiry_date := recs.map
      (fun p => [p.expiry_date.year, p.expiry_date.month, p.expiry_date.day])
    equity := recs.map (fun p => p.equity)
    contract_amount := recs.map (fun p => decimal_to_double p.contract_amount)
    business_day_convention :=
      convention_from_proto_value (recs.headD default).business_day_convention
    calendar := holiday_from_proto_value (recs.headD default).bank_holidays
    strike := recs.map (fun p => decimal_to_double p.strike)
    is_call_option := recs.map (fun p => p.is_call_option)
    settlement_days := recs.map (fun p => p.settlement_days)
    american_option_config := cfg
    batch_names := recs.map (fun p => [p.metadata.id, p.metadata.instrument_type]) }

/-- The records of `l` carrying a given fingerprint, in input order. -/
def keyFilter (md5 : String → String) (l : List AmericanEquityOption)
    (h : String) : List AmericanEquityOption :=
  l.filter (fun q => hkey md5 q = h)

/-- A concrete stand-in for the abstract MD5 digest in witnesses: the
identity on the serialized string. -/
def digestId (s : String) : String := s

/-- A concrete stand-in for the Python string hash in witnesses. -/
def hashFix (s : String) : Int := if s = "GOOG" then 0 else if s = "MSFT" then 1 else 2

/-- Concrete option record used in witnesses. -/
def optA : AmericanEquityOption :=
  { short_position := true, currency := 1, expiry_date := ⟨2021, 5, 21⟩,
    equity := "GOOG", contract_amount := ⟨10000, 0⟩, business_day_convention := 1,
    strike := ⟨1500, 0⟩, bank_holidays := 1, settlement_days := 2,
    is_call_option := true, metadata := ⟨"opt1", "AmericanEquityOption"⟩ }

/-- Concrete option record sharing `optA`'s grouping attributes but with a
different currency and different numeric fields. -/
def optB : AmericanEquityOption :=
  { short_position := false, currency := 7, expiry_date := ⟨2022, 1, 15⟩,
    equity := "MSFT", contract_amount := ⟨500, 500000000⟩, business_day_convention := 1,
    strike := ⟨230, 0⟩, bank_holidays := 1, settlement_days := 1,
    is_call_option := false, metadata := ⟨"opt2", "AmericanEquityOption"⟩ }

/-- Concrete option record with grouping attributes distinct from `optA`'s. -/
def optC : AmericanEquityOption :=
  { short_position := false, currency := 1, expiry_date := ⟨2021, 6, 1⟩,
    equity := "AAPL", contract_amount := ⟨1, 0⟩, business_day_convention := 2,
    strike := ⟨130, 0⟩, bank_holidays := 3, settlement_days := 2,
    is_call_option := true, metadata := ⟨"opt3", "AmericanEquityOption"⟩ }

/-- Concrete proto list used in witnesses: `optA` and `optB` share a
fingerprint, `optC` has a different one. -/
def protosFix : List AmericanEquityOption := [optA, optB, optC]

/-- Concrete market-data context used in the `get_vol_surface` witness. -/
def marketFix : ProcessedMarketData :=
  { date := ⟨2020, 6, 24⟩
    volatility_surface := fun keys =>
      { node_expiries := [737700, 737800]
        node_strikes := [1500, 230]
        node_volatilities := [1/5, 3/10]
        daycount_convention := keys.length } }

/-- Concrete ordinal-to-date conversion used in the `get_vol_surface`
witness. -/
def dfoFix (o : Int) : Date := ⟨o, 1, 1⟩

theorem mem_firstOcc {α : Type} [DecidableEq α] (a : α) :
    ∀ (xs : List α), (a ∈ firstOcc xs ↔ a ∈ xs)
  | [] => Iff.rfl
  | x :: xs => by
    by_cases hax : a = x
    · simp [firstOcc, hax]
    · simp [firstOcc, hax, List.mem_filter, mem_firstOcc a xs]

theorem nodup_firstOcc {α : Type} [DecidableEq α] : ∀ (xs : List α), (firstOcc xs).Nodup
  | [] => List.nodup_nil
  | x :: xs => by
    simp only [firstOcc, List.nodup_cons]
    refine ⟨fun hx => ?_, (nodup_firstOcc xs).filter _⟩
    have := (List.mem_filter.1 hx).2
    simp at this

theorem firstOcc_concat {α : Type} [DecidableEq α] (y : α) :
    ∀ (xs : List α),
      firstOcc (xs ++ [y]) = if y ∈ xs then firstOcc xs else firstOcc xs ++ [y]
  | [] => by simp [firstOcc]
  | x :: xs => by
    simp only [List.cons_append, firstOcc, List.append_eq]
    rw [firstOcc_concat y xs]
    by_cases hmem : y ∈ xs
    · rw [if_pos hmem, if_pos (List.mem_cons_of_mem x hmem)]
    · by_cases hyx : y = x
      · subst hyx
        rw [if_neg hmem, if_pos (List.mem_cons_self y xs), List.filter_append]
        simp
      · rw [if_neg hmem, if_neg (by simp [hyx, hmem] : ¬ y ∈ x :: xs), List.filter_append]
        simp [hyx]

theorem firstOcc_of_nodup {α : Type} [DecidableEq α] :
    ∀ {xs : List α}, xs.Nodup → firstOcc xs = xs
  | [], _ => rfl
  | x :: xs, h => by
    obtain ⟨hx, hnd⟩ := List.nodup_cons.1 h
    simp only [firstOcc, firstOcc_of_nodup hnd]
    rw [List.filter_eq_self.2]
    intro a ha
    simp [ne_of_mem_of_not_mem ha hx]

theorem toFinset_firstOcc {α : Type} [DecidableEq α] (xs : List α) :
    (firstOcc xs).toFinset = xs.toFinset := by
  ext a
  simp [List.mem_toFinset, mem_firstOcc]

theorem length_firstOcc {α : Type} [DecidableEq α] (xs : List α) :
    (firstOcc xs).length = xs.toFinset.card := by
  rw [← toFinset_firstOcc, List.toFinset_card_of_nodup (nodup_firstOcc xs)]

theorem firstOcc_map {α β : Type} [DecidableEq α] [DecidableEq β] (f : α → β) :
    ∀ (xs : List α), (∀ a ∈ xs, ∀ b ∈ xs, f a = f b → a = b) →
      firstOcc (xs.map f) = (firstOcc xs).map f
  | [], _ => rfl
  | x :: xs, hinj => by
    have hinj' : ∀ a ∈ xs, ∀ b ∈ xs, f a = f b → a = b := fun a ha b hb =>
      hinj a (List.mem_cons_of_mem x ha) b (List.mem_cons_of_mem x hb)
    simp only [List.map_cons, firstOcc, firstOcc_map f xs hinj', List.filter_map]
    congr 1
    refine congrArg (List.map f) (List.filter_congr ?_)
    intro a ha
    have haxs : a ∈ x :: xs := List.mem_cons_of_mem x ((mem_firstOcc a xs).1 ha)
    by_cases hax : a = x
    · simp [Function.comp, hax]
    · have hfa : f a ≠ f x := fun hf =>
        hax (hinj a haxs x (List.mem_cons_self x xs) hf)
      simp [Function.comp, hax, hfa]

theorem indexOf_map {α β : Type} [DecidableEq α] [DecidableEq β] (f : α → β) (k : α) :
    ∀ (u : List α), (∀ a ∈ u, f a = f k → a = k) →
      (u.map f).indexOf (f k) = u.indexOf k
  | [], _ => rfl
  | a :: u, hinj => by
    by_cases hak : a = k
    · subst hak
      simp [List.indexOf_cons_self]
    · have hfa : f a ≠ f k := fun h => hak (hinj a (List.mem_cons_self a u) h)
      rw [List.map_cons, List.indexOf_cons_ne _ hfa, List.indexOf_cons_ne _ hak,
        indexOf_map f k u (fun b hb => hinj b (List.mem_cons_of_mem a hb))]

theorem mapOpt_eq_some_of {α β : Type} (f : α → Option β) (g : α → β) :
    ∀ (l : List α), (∀ a ∈ l, f a = some (g a)) → mapOpt f l = some (l.map g)
  | [], _ => rfl
  | x :: xs, h => by
    rw [mapOpt, h x (List.mem_cons_self x xs),
      mapOpt_eq_some_of f g xs (fun a ha => h a (List.mem_cons_of_mem x ha))]
    rfl

theorem mapOpt_isSome {α β : Type} (f : α → Option β) :
    ∀ (l : List α), (∀ a ∈ l, (f a).isSome) → ∃ ys, mapOpt f l = some ys
  | [], _ => ⟨[], rfl⟩
  | x :: xs, h => by
    obtain ⟨y, hy⟩ := Option.isSome_iff_exists.1 (h x (List.mem_cons_self x xs))
    obtain ⟨ys, hys⟩ := mapOpt_isSome f xs (fun a ha => h a (List.mem_cons_of_mem x ha))
    exact ⟨y :: ys, by rw [mapOpt, hy, hys]; rfl⟩

theorem pyDict_eq_some {α β : Type} [DecidableEq α] {ps : List (α × β)} {k : α} {b : β}
    (hmem : (k, b) ∈ ps) (huniq : ∀ p ∈ ps, p.1 = k → p.2 = b) :
    pyDict ps k = some b := by
  unfold pyDict
  have hex : ∃ x ∈ ps.reverse, decide (x.1 = k) = true :=
    ⟨(k, b), List.mem_reverse.2 hmem, by simp⟩
  obtain ⟨p, hp⟩ := Option.isSome_iff_exists.1 (List.find?_isSome.2 hex)
  rw [hp]
  have h1 : p.1 = k := by simpa using List.find?_some hp
  have h2 : p ∈ ps := List.mem_reverse.1 (List.mem_of_find?_eq_some hp)
  simp [huniq p h2 h1]

theorem pyDict_isSome {α β : Type} [DecidableEq α] {ps : List (α × β)} {k : α}
    (hex : ∃ p ∈ ps, p.1 = k) : (pyDict ps k).isSome := by
  obtain ⟨p, hp, hk⟩ := hex
  unfold pyDict
  rw [Option.isSome_map']
  exact List.find?_isSome.2 ⟨p, List.mem_reverse.2 hp, by simp [hk]⟩

theorem find?_keyed {α β : Type} [DecidableEq α] (f : α → β) (h0 : α) :
    ∀ (K : List α),
      (K.map (fun h => (h, f h))).find? (fun kv => decide (kv.1 = h0)) =
        if h0 ∈ K then some (h0, f h0) else none
  | [] => rfl
  | k :: K => by
    by_cases hk : k = h0
    · subst hk
      rw [List.map_cons, List.find?_cons_of_pos _ (by simp), if_pos (List.mem_cons_self k K)]
    · rw [List.map_cons, List.find?_cons_of_neg _ (by simp [hk]), find?_keyed f h0 K]
      by_cases hmem : h0 ∈ K
      · rw [if_pos hmem, if_pos (List.mem_cons_of_mem k hmem)]
      · rw [if_neg hmem, if_neg (by
          simp only [List.mem_cons, hmem, or_false]
          exact fun h => hk h.symm)]

theorem map_update_keyed {α β : Type} [DecidableEq α] (f : α → β) (g : β → β)
    (h0 : α) (K : List α) :
    (K.map (fun h => (h, f h))).map
        (fun kv => if kv.1 = h0 then (kv.1, g kv.2) else kv) =
      K.map (fun h => if h = h0 then (h, g (f h)) else (h, f h)) := by
  rw [List.map_map]
  refine List.map_congr_left ?_
  intro a _
  by_cases hah : a = h0 <;> simp [hah]

theorem grouping_fold_spec {G : Type} (key : AmericanEquityOption → String)
    (newG : AmericanEquityOption → G) (appG : G → AmericanEquityOption → G)
    (specG : List AmericanEquityOption → G)
    (hnew : ∀ p, newG p = specG [p])
    (happ : ∀ recs p, recs ≠ [] → appG (specG recs) p = specG (recs ++ [p])) :
    ∀ (l : List AmericanEquityOption),
      l.foldl (fun acc p =>
          if (acc.find? (fun kv => decide (kv.1 = key p))).isSome then
            acc.map (fun kv => if kv.1 = key p then (kv.1, appG kv.2 p) else kv)
          else acc ++ [(key p, newG p)]) [] =
        (firstOcc (l.map key)).map
          (fun h => (h, specG (l.filter (fun q => decide (key q = h))))) := by
  intro l
  induction l using List.reverseRecOn with
  | nil => rfl
  | append_singleton l p ih =>
    rw [List.foldl_append, List.foldl_cons, List.foldl_nil, ih, List.map_append,
      List.map_cons, List.map_nil, firstOcc_concat]
    by_cases hin : key p ∈ l.map key
    · have hfil : l.filter (fun q => decide (key q = key p)) ≠ [] := by
        obtain ⟨q, hq, hkq⟩ := List.mem_map.1 hin
        exact List.ne_nil_of_mem (List.mem_filter.2 ⟨hq, by simp [hkq]⟩)
      rw [if_pos hin, find?_keyed, if_pos ((mem_firstOcc _ _).2 hin)]
      simp only [Option.isSome_some, if_pos trivial, if_true]
      rw [map_update_keyed (fun h => specG (List.filter (fun q => decide (key q = h)) l))
        (fun b => appG b p) (key p) (firstOcc (List.map key l))]
      refine List.map_congr_left ?_
      intro h hh
      rw [List.filter_append, List.filter_singleton]
      by_cases hhp : h = key p
      · subst hhp
        simp only [decide_True, cond_true, if_pos trivial]
        rw [happ _ p hfil]
      · have hpf : decide (key p = h) = false := by
          simp only [decide_eq_false_iff_not]
          exact fun e => hhp e.symm
        simp [hpf, hhp]
    · have hfil : l.filter (fun q => decide (key q = key p)) = [] := by
        rw [List.filter_eq_nil_iff]
        intro q hq
        simp only [decide_eq_true_eq]
        exact fun hkq => hin (List.mem_map.2 ⟨q, hq, hkq⟩)
      rw [if_neg hin, find?_keyed, if_neg (fun hmem => hin ((mem_firstOcc _ _).1 hmem))]
      simp only [Option.isSome_none, Bool.false_eq_true, if_false]
      rw [List.map_append, List.map_cons, List.map_nil]
      congr 1
      · refine List.map_congr_left ?_
        intro h hh
        have hhl : h ∈ l.map key := (mem_firstOcc _ _).1 hh
        have hhp : decide (key p = h) = false := by
          simp only [decide_eq_false_iff_not]
          exact fun e => hin (e ▸ hhl)
        rw [List.filter_append, List.filter_singleton, hhp]
        simp
      · rw [List.filter_append, List.filter_singleton, hfil]
        simp [hnew p]

theorem group_protos_spec (md5 : String → String) (l : List AmericanEquityOption) :
    group_protos md5 l =
      (firstOcc (l.map (hkey md5))).map (fun h => (h, keyFilter md5 l h)) :=
  grouping_fold_spec (hkey md5) (fun p => [p]) (fun g p => g ++ [p])
    (fun recs => recs) (fun _ => rfl) (fun _ _ _ => rfl) l

theorem appendToGroup_batchOf (cfg : Option Unit) (recs : List AmericanEquityOption)
    (p : AmericanEquityOption) (hne : recs ≠ []) :
    appendToGroup (batchOf cfg recs) p = batchOf cfg (recs ++ [p]) := by
  cases recs with
  | nil => exact absurd rfl hne
  | cons r rs => simp [appendToGroup, batchOf, List.map_append]

theorem from_protos_spec (md5 : String → String) (cfg : Option Unit)
    (l : List AmericanEquityOption) :
    from_protos md5 cfg l =
      (firstOcc (l.map (hkey md5))).map
        (fun h => (h, batchOf cfg (keyFilter md5 l h))) :=
  grouping_fold_spec (hkey md5) (newGroup cfg) appendToGroup (batchOf cfg)
    (fun _ => rfl) (appendToGroup_batchOf cfg) l

theorem range_map_getD {α : Type} [Inhabited α] (u : List α) :
    (List.range u.length).map (fun i => u.getD i default) = u := by
  apply List.ext_getElem
  · simp
  · intro i h1 h2
    rw [List.getElem_map, List.getElem_range, List.getD_eq_getElem u default h2]

theorem process_equities_spec (hsh : String → Int) (keys : List String)
    (hinj : ∀ a ∈ keys, ∀ b ∈ keys, hsh a = hsh b → a = b) :
    process_equities hsh keys =
      some (firstOcc keys, keys.map (fun k => (firstOcc keys).indexOf k)) := by
  have hhu : firstOcc (keys.map hsh) = (firstOcc keys).map hsh :=
    firstOcc_map hsh keys hinj
  show (mapOpt
      (fun i => ((firstOcc (keys.map hsh)).get? i).bind
        (pyDict (keys.map (fun e => (hsh e, e)))))
      (List.range (firstOcc (keys.map hsh)).length)).map
    (fun equity_types =>
      (equity_types, (keys.map hsh).map (fun x => (firstOcc (keys.map hsh)).indexOf x))) = _
  rw [hhu]
  have hmain : mapOpt
      (fun i => (((firstOcc keys).map hsh).get? i).bind
        (pyDict (keys.map (fun e => (hsh e, e)))))
      (List.range ((firstOcc keys).map hsh).length) = some (firstOcc keys) := by
    rw [List.length_map]
    rw [mapOpt_eq_some_of _ (fun i => (firstOcc keys).getD i default) _ ?_,
      range_map_getD]
    intro i hi
    have hi' : i < (firstOcc keys).length := List.mem_range.1 hi
    have hmem : (firstOcc keys)[i] ∈ keys :=
      (mem_firstOcc _ keys).1 (List.getElem_mem hi')
    have hget : ((firstOcc keys).map hsh).get? i = some (hsh (firstOcc keys)[i]) := by
      rw [List.get?_eq_getElem?,
        List.getElem?_eq_getElem (by simpa using hi' : i < ((firstOcc keys).map hsh).length),
        List.getElem_map]
    rw [hget, Option.some_bind]
    have hpair : ((hsh (firstOcc keys)[i], (firstOcc keys)[i]) : Int × String) ∈
        keys.map (fun e => (hsh e, e)) :=
      List.mem_map.2 ⟨(firstOcc keys)[i], hmem, rfl⟩
    have huniq : ∀ pr ∈ keys.map (fun e => (hsh e, e)),
        pr.1 = hsh (firstOcc keys)[i] → pr.2 = (firstOcc keys)[i] := by
      intro pr hpr hfst
      obtain ⟨e, he, heq⟩ := List.mem_map.1 hpr
      have he2 : e = (firstOcc keys)[i] := by
        refine hinj e he _ hmem ?_
        have h3 : pr.1 = hsh e := by rw [← heq]
        rw [← hfst, h3]
      rw [← heq, he2]
    have hdict : pyDict (keys.map (fun e => (hsh e, e))) (hsh (firstOcc keys)[i]) =
        some (firstOcc keys)[i] := pyDict_eq_some hpair huniq
    simp only [hdict, List.getD_eq_getElem _ default hi']
  rw [hmain, Option.map_some']
  refine congrArg some (congrArg _ ?_)
  rw [List.map_map]
  refine List.map_congr_left ?_
  intro k hk
  exact indexOf_map hsh k (firstOcc keys)
    (fun a ha hfa => hinj a ((mem_firstOcc a keys).1 ha) k hk hfa)

theorem process_equities_total_aux (hsh : String → Int) (keys : List String) :
    ∃ r, process_equities hsh keys = some r := by
  show ∃ r, (mapOpt
      (fun i => ((firstOcc (keys.map hsh)).get? i).bind
        (pyDict (keys.map (fun e => (hsh e, e)))))
      (List.range (firstOcc (keys.map hsh)).length)).map
    (fun equity_types =>
      (equity_types, (keys.map hsh).map (fun x => (firstOcc (keys.map hsh)).indexOf x))) =
      some r
  have hsome : ∀ i ∈ List.range (firstOcc (keys.map hsh)).length,
      (((firstOcc (keys.map hsh)).get? i).bind
        (pyDict (keys.map (fun e => (hsh e, e))))).isSome := by
    intro i hi
    have hi' : i < (firstOcc (keys.map hsh)).length := List.mem_range.1 hi
    have hget : (firstOcc (keys.map hsh)).get? i = some (firstOcc (keys.map hsh))[i] := by
      rw [List.get?_eq_getElem?, List.getElem?_eq_getElem hi']
    rw [hget, Option.some_bind]
    have hmem : (firstOcc (keys.map hsh))[i] ∈ keys.map hsh :=
      (mem_firstOcc _ _).1 (List.getElem_mem hi')
    obtain ⟨e, he, heq⟩ := List.mem_map.1 hmem
    exact pyDict_isSome ⟨(hsh e, e), List.mem_map.2 ⟨e, he, rfl⟩, heq⟩
  obtain ⟨ys, hys⟩ := mapOpt_isSome _ _ hsome
  exact ⟨_, by rw [hys]; rfl⟩

theorem hkey_eq_of_attrs (md5 : String → String) (a b : AmericanEquityOption)
    (hcal : a.bank_holidays = b.bank_holidays)
    (hconv : a.business_day_convention = b.business_day_convention) :
    hkey md5 a = hkey md5 b := by
  simp only [hkey, _get_hash, _hasher, json_dumps, hcal, hconv]

theorem gather_eq_some {α : Type} [Inhabited α] (xs : List α) (mask : List Nat)
    (hb : ∀ j ∈ mask, j < xs.length) :
    gather xs mask = some (mask.map (fun j => xs.getD j default)) := by
  refine mapOpt_eq_some_of _ _ mask ?_
  intro j hj
  rw [List.get?_eq_getElem?, List.getElem?_eq_getElem (hb j hj),
    List.getD_eq_getElem xs default (hb j hj)]

/-- C5: Fingerprint determinism: the fingerprint computed by `_get_hash` is
a pure function of the pair (bank-holiday calendar code, business-day
convention code): two records agreeing on those two fields receive equal
fingerprints, whatever their numeric fields, currency or position. -/
theorem fingerprint_deterministic (md5 : String → String)
    (a b : AmericanEquityOption)
    (hcal : a.bank_holidays = b.bank_holidays)
    (hconv : a.business_day_convention = b.business_day_convention) :
    (_get_hash md5 a).1 = (_get_hash md5 b).1 :=
  hkey_eq_of_attrs md5 a b hcal hconv

/-- Witness for C5: `optA` and `optB` differ in currency, strike, expiry,
amount and position flags but share calendar and convention. -/
theorem fingerprint_deterministic_witness :
    (_get_hash digestId optA).1 = (_get_hash digestId optB).1 :=
  fingerprint_deterministic digestId optA optB (by decide) (by decide)

/-- C1: Mask round-trip: under the implicit assumption that the Python
string hash does not collide on the input keys, `process_equities` returns
`(unique_keys, mask)` with `unique_keys[mask[i]] = keys[i]` for every
index, `mask` of the input's length with every entry below
`|unique_keys|`, and `|unique_keys|` the number of distinct input keys. -/
theorem mask_round_trip (hsh : String → Int) (keys : List String)
    (hinj : ∀ a ∈ keys, ∀ b ∈ keys, hsh a = hsh b → a = b) :
    ∃ unique_keys mask, process_equities hsh keys = some (unique_keys, mask) ∧
      mask.length = keys.length ∧
      (∀ j ∈ mask, j < unique_keys.length) ∧
      (∀ i, i < keys.length → ∃ j, mask[i]? = some j ∧
        j < unique_keys.length ∧ unique_keys[j]? = keys[i]?) ∧
      unique_keys.length = keys.toFinset.card := by
  refine ⟨firstOcc keys, keys.map (fun k => (firstOcc keys).indexOf k),
    process_equities_spec hsh keys hinj, List.length_map keys _, ?_, ?_,
    length_firstOcc keys⟩
  · intro j hj
    obtain ⟨k, hk, hkj⟩ := List.mem_map.1 hj
    rw [← hkj]
    exact List.indexOf_lt_length.2 ((mem_firstOcc k keys).2 hk)
  · intro i hi
    have hmem : keys[i] ∈ firstOcc keys := (mem_firstOcc _ keys).2 (List.getElem_mem hi)
    refine ⟨(firstOcc keys).indexOf keys[i], ?_, List.indexOf_lt_length.2 hmem, ?_⟩
    · rw [List.getElem?_map, List.getElem?_eq_getElem hi]
      rfl
    · rw [List.getElem?_eq_getElem (List.indexOf_lt_length.2 hmem),
        List.getElem_indexOf, List.getElem?_eq_getElem hi]

/-- Witness for C1 at the spec's example input. -/
theorem mask_round_trip_witness :
    ∃ unique_keys mask,
      process_equities hashFix ["GOOG", "MSFT", "GOOG"] = some (unique_keys, mask) ∧
      mask.length = (["GOOG", "MSFT", "GOOG"] : List String).length ∧
      (∀ j ∈ mask, j < unique_keys.length) ∧
      (∀ i, i < (["GOOG", "MSFT", "GOOG"] : List String).length → ∃ j, mask[i]? = some j ∧
        j < unique_keys.length ∧ unique_keys[j]? = (["GOOG", "MSFT", "GOOG"] : List String)[i]?) ∧
      unique_keys.length = (["GOOG", "MSFT", "GOOG"] : List String).toFinset.card :=
  mask_round_trip hashFix ["GOOG", "MSFT", "GOOG"] (by decide)

/-- C2: First-occurrence order of the deduplicated keys: with a
collision-free hash, `process_equities` returns the distinct keys in order
of first occurrence, with the mask pointing each key at its position in
that list (deciding code `cashflow_streams.create_mask` modelled from the
spec). -/
theorem dedup_first_occurrence (hsh : String → Int) (keys : List String)
    (hinj : ∀ a ∈ keys, ∀ b ∈ keys, hsh a = hsh b → a = b) :
    process_equities hsh keys =
      some (firstOcc keys, keys.map (fun k => (firstOcc keys).indexOf k)) :=
  process_equities_spec hsh keys hinj

/-- Witness for C2: the spec's end-to-end example 2. -/
theorem dedup_first_occurrence_witness :
    process_equities hashFix ["GOOG", "MSFT", "GOOG"] =
      some (["GOOG", "MSFT"], [0, 1, 0]) := by
  rw [dedup_first_occurrence hashFix ["GOOG", "MSFT", "GOOG"] (by decide)]
  decide

/-- C6: Idempotence of dedup: on a list of pairwise-distinct keys (with a
collision-free hash), `process_equities` returns the input unchanged and
the identity mask `[0, 1, 2, ...]`. -/
theorem dedup_idempotent (hsh : String → Int) (keys : List String)
    (hnd : keys.Nodup)
    (hinj : ∀ a ∈ keys, ∀ b ∈ keys, hsh a = hsh b → a = b) :
    process_equities hsh keys = some (keys, List.range keys.length) := by
  rw [process_equities_spec hsh keys hinj, firstOcc_of_nodup hnd]
  refine congrArg some (congrArg _ ?_)
  apply List.ext_getElem
  · simp
  · intro i h1 h2
    rw [List.getElem_map, List.getElem_range]
    exact List.indexOf_getElem hnd i (by simpa using h1)

/-- Witness for C6 on an all-distinct key list. -/
theorem dedup_idempotent_witness :
    process_equities hashFix ["GOOG", "MSFT"] =
      some (["GOOG", "MSFT"], List.range (["GOOG", "MSFT"] : List String).length) :=
  dedup_idempotent hashFix ["GOOG", "MSFT"] (by decide) (by decide)

/-- C9: Totality of grouping and dedup: `process_equities` returns a
result for every key list and every hash function (even a colliding one),
`group_protos` of the empty list is the empty mapping, and
`process_equities` of the empty list returns empty outputs (dedup step
modelled from the spec). -/
theorem grouping_dedup_total (md5 : String → String) (hsh : String → Int)
    (keys : List String) :
    (∃ r, process_equities hsh keys = some r) ∧
      group_protos md5 [] = [] ∧
      process_equities hsh [] = some ([], []) :=
  ⟨process_equities_total_aux hsh keys, rfl, rfl⟩

/-- C3: BatchGroup alignment invariant: every group in the mapping built by
`from_protos` has all eight per-record arrays of length equal to the number
of records that hashed to that group, and at every index `i` all arrays
carry the fields of the same source record (the i-th record of the group,
in input order). -/
theorem batch_group_alignment (md5 : String → String) (cfg : Option Unit)
    (l : List AmericanEquityOption) (h : String) (g : BatchGroup)
    (hmem : (h, g) ∈ from_protos md5 cfg l) :
    g.short_position.length = (keyFilter md5 l h).length ∧
    g.expiry_date.length = (keyFilter md5 l h).length ∧
    g.equity.length = (keyFilter md5 l h).length ∧
    g.contract_amount.length = (keyFilter md5 l h).length ∧
    g.strike.length = (keyFilter md5 l h).length ∧
    g.is_call_option.length = (keyFilter md5 l h).length ∧
    g.settlement_days.length = (keyFilter md5 l h).length ∧
    g.batch_names.length = (keyFilter md5 l h).length ∧
    ∀ i, i < (keyFilter md5 l h).length →
      g.short_position[i]? = ((keyFilter md5 l h)[i]?).map (fun p => p.short_position) ∧
      g.expiry_date[i]? = ((keyFilter md5 l h)[i]?).map
        (fun p => [p.expiry_date.year, p.expiry_date.month, p.expiry_date.day]) ∧
      g.equity[i]? = ((keyFilter md5 l h)[i]?).map (fun p => p.equity) ∧
      g.contract_amount[i]? = ((keyFilter md5 l h)[i]?).map
        (fun p => decimal_to_double p.contract_amount) ∧
      g.strike[i]? = ((keyFilter md5 l h)[i]?).map (fun p => decimal_to_double p.strike) ∧
      g.is_call_option[i]? = ((keyFilter md5 l h)[i]?).map (fun p => p.is_call_option) ∧
      g.settlement_days[i]? = ((keyFilter md5 l h)[i]?).map (fun p => p.settlement_days) ∧
      g.batch_names[i]? = ((keyFilter md5 l h)[i]?).map
        (fun p => [p.metadata.id, p.metadata.instrument_type]) := by
  rw [from_protos_spec] at hmem
  obtain ⟨h0, hh0, heq⟩ := List.mem_map.1 hmem
  injection heq with e1 e2
  subst e1
  subst e2
  refine ⟨rfl.trans (List.length_map _ _), rfl.trans (List.length_map _ _),
    rfl.trans (List.length_map _ _), rfl.trans (List.length_map _ _),
    rfl.trans (List.length_map _ _), rfl.trans (List.length_map _ _),
    rfl.trans (List.length_map _ _), rfl.trans (List.length_map _ _), ?_⟩
  intro i _
  exact ⟨List.getElem?_map _ _ _, List.getElem?_map _ _ _, List.getElem?_map _ _ _,
    List.getElem?_map _ _ _, List.getElem?_map _ _ _, List.getElem?_map _ _ _,
    List.getElem?_map _ _ _, List.getElem?_map _ _ _⟩

/-- Witness for C3: the array of short-position flags of the group of
`optA` and `optB` has the group's record count as its length. -/
theorem batch_group_alignment_witness :
    (batchOf none (keyFilter digestId protosFix (hkey digestId optA))).short_position.length =
      (keyFilter digestId protosFix (hkey digestId optA)).length :=
  (batch_group_alignment digestId none protosFix (hkey digestId optA)
    (batchOf none (keyFilter digestId protosFix (hkey digestId optA)))
    (by
      rw [from_protos_spec]
      exact List.mem_map.2 ⟨hkey digestId optA, by decide, rfl⟩)).1

/-- C4: Order preservation in grouping: every group produced by
`group_protos` is exactly the input's records with that fingerprint in
input order (a sublist of the input, never re-sorted), and grouping a
permutation of the input that preserves the per-fingerprint relative order
yields the same mapping (same value at every fingerprint key). -/
theorem group_order_preservation (md5 : String → String)
    (l l' : List AmericanEquityOption) (hperm : l.Perm l')
    (hfil : ∀ h, keyFilter md5 l h = keyFilter md5 l' h) :
    (∀ h gr, (h, gr) ∈ group_protos md5 l → gr = keyFilter md5 l h ∧ gr.Sublist l) ∧
    ∀ h, (group_protos md5 l).find? (fun kv => decide (kv.1 = h)) =
      (group_protos md5 l').find? (fun kv => decide (kv.1 = h)) := by
  constructor
  · intro h gr hmem
    rw [group_protos_spec] at hmem
    obtain ⟨h0, hh0, heq⟩ := List.mem_map.1 hmem
    injection heq with e1 e2
    subst e1
    refine ⟨e2.symm, ?_⟩
    rw [← e2]
    exact List.filter_sublist l
  · intro h
    rw [group_protos_spec, group_protos_spec,
      find?_keyed (keyFilter md5 l) h, find?_keyed (keyFilter md5 l') h]
    have hmm : h ∈ firstOcc (l.map (hkey md5)) ↔ h ∈ firstOcc (l'.map (hkey md5)) := by
      rw [mem_firstOcc, mem_firstOcc]
      exact (hperm.map (hkey md5)).mem_iff
    by_cases hh : h ∈ firstOcc (l.map (hkey md5))
    · rw [if_pos hh, if_pos (hmm.1 hh), hfil h]
    · rw [if_neg hh, if_neg (fun c => hh (hmm.2 c))]

/-- Witness for C4: swapping two records with distinct fingerprints leaves
the group at `optA`'s fingerprint unchanged. -/
theorem group_order_preservation_witness :
    (group_protos digestId [optA, optC]).find?
        (fun kv => decide (kv.1 = hkey digestId optA)) =
      (group_protos digestId [optC, optA]).find?
        (fun kv => decide (kv.1 = hkey digestId optA)) :=
  (group_order_preservation digestId [optA, optC] [optC, optA]
    (List.Perm.swap optC optA [])
    (by
      intro h
      by_cases h1 : hkey digestId optA = h <;> by_cases h2 : hkey digestId optC = h
      · exact absurd (h1.trans h2.symm) (by decide)
      all_goals simp [keyFilter, List.filter_cons, h1, h2])).2 (hkey digestId optA)

/-- C7: No intra-group uniformity validation: two records with identical
calendar and convention but different currencies land in the same group
without any error; the group-level currency, calendar and convention are
the ones resolved from the first record of the group in input order, and
the later record's currency is dropped without comparison. -/
theorem no_intra_group_validation (md5 : String → String) (cfg : Option Unit)
    (l : List AmericanEquityOption) (a b : AmericanEquityOption)
    (ha : a ∈ l) (hb : b ∈ l)
    (hcal : a.bank_holidays = b.bank_holidays)
    (hconv : a.business_day_convention = b.business_day_convention)
    (_hcur : a.currency ≠ b.currency) :
    ∃ g, (hkey md5 a, g) ∈ from_protos md5 cfg l ∧
      a ∈ keyFilter md5 l (hkey md5 a) ∧
      b ∈ keyFilter md5 l (hkey md5 a) ∧
      g.currency = from_proto_value
        ((keyFilter md5 l (hkey md5 a)).headD default).currency ∧
      g.calendar = holiday_from_proto_value
        ((keyFilter md5 l (hkey md5 a)).headD default).bank_holidays ∧
      g.business_day_convention = convention_from_proto_value
        ((keyFilter md5 l (hkey md5 a)).headD default).business_day_convention := by
  refine ⟨batchOf cfg (keyFilter md5 l (hkey md5 a)), ?_, ?_, ?_, rfl, rfl, rfl⟩
  · rw [from_protos_spec]
    exact List.mem_map.2
      ⟨hkey md5 a, (mem_firstOcc _ _).2 (List.mem_map.2 ⟨a, ha, rfl⟩), rfl⟩
  · exact List.mem_filter.2 ⟨ha, by simp⟩
  · exact List.mem_filter.2 ⟨hb, by simp [hkey_eq_of_attrs md5 b a hcal.symm hconv.symm]⟩

/-- Witness for C7: `optA` and `optB` share calendar and convention but
have currencies 1 and 7. -/
theorem no_intra_group_validation_witness :
    ∃ g, (hkey digestId optA, g) ∈ from_protos digestId none [optA, optB] ∧
      optA ∈ keyFilter digestId [optA, optB] (hkey digestId optA) ∧
      optB ∈ keyFilter digestId [optA, optB] (hkey digestId optA) ∧
      g.currency = from_proto_value
        ((keyFilter digestId [optA, optB] (hkey digestId optA)).headD default).currency ∧
      g.calendar = holiday_from_proto_value
        ((keyFilter digestId [optA, optB] (hkey digestId optA)).headD default).bank_holidays ∧
      g.business_day_convention = convention_from_proto_value
        ((keyFilter digestId [optA, optB]
          (hkey digestId optA)).headD default).business_day_convention :=
  no_intra_group_validation digestId none [optA, optB] optA optB (by decide) (by decide)
    (by decide) (by decide) (by decide)

/-- C10: Partition agreement: `from_protos` and `group_protos` produce the
same fingerprint keys in the same order, and at each common key the
`from_protos` group is exactly the field-of-arrays view of the
`group_protos` record list (same records, same input order, so every
per-record array's length equals that list's length). -/
theorem partition_agreement (md5 : String → String) (cfg : Option Unit)
    (l : List AmericanEquityOption) :
    (from_protos md5 cfg l).map Prod.fst = (group_protos md5 l).map Prod.fst ∧
    ∀ h g gr, (h, g) ∈ from_protos md5 cfg l → (h, gr) ∈ group_protos md5 l →
      g = batchOf cfg gr ∧
      g.short_position.length = gr.length ∧
      g.expiry_date.length = gr.length ∧
      g.equity.length = gr.length ∧
      g.contract_amount.length = gr.length ∧
      g.strike.length = gr.length ∧
      g.is_call_option.length = gr.length ∧
      g.settlement_days.length = gr.length ∧
      g.batch_names.length = gr.length := by
  constructor
  · rw [from_protos_spec, group_protos_spec, List.map_map, List.map_map]
    rfl
  · intro h g gr hg hgr
    rw [from_protos_spec] at hg
    rw [group_protos_spec] at hgr
    obtain ⟨h1, hh1, he1⟩ := List.mem_map.1 hg
    obtain ⟨h2, hh2, he2⟩ := List.mem_map.1 hgr
    injection he1 with e1a e1b
    injection he2 with e2a e2b
    subst e1a
    subst e2a
    subst e1b
    subst e2b
    exact ⟨rfl, rfl.trans (List.length_map _ _), rfl.trans (List.length_map _ _),
      rfl.trans (List.length_map _ _), rfl.trans (List.length_map _ _),
      rfl.trans (List.length_map _ _), rfl.trans (List.length_map _ _),
      rfl.trans (List.length_map _ _), rfl.trans (List.length_map _ _)⟩

/-- Witness for C10 at the fingerprint shared by `optA` and `optB`. -/
theorem partition_agreement_witness :
    (batchOf none (keyFilter digestId protosFix (hkey digestId optA))).short_position.length =
      (keyFilter digestId protosFix (hkey digestId optA)).length :=
  ((partition_agreement digestId none protosFix).2 (hkey digestId optA)
    (batchOf none (keyFilter digestId protosFix (hkey digestId optA)))
    (keyFilter digestId protosFix (hkey digestId optA))
    (by
      rw [from_protos_spec]
      exact List.mem_map.2 ⟨hkey digestId optA, by decide, rfl⟩)
    (by
      rw [group_protos_spec]
      exact List.mem_map.2 ⟨hkey digestId optA, by decide, rfl⟩)).2.1

/-- C8: Gather semantics: whenever every mask entry indexes into the
provider's node arrays, `get_vol_surface` succeeds and returns a surface
whose aligned strike, volatility and expiry arrays satisfy
`aligned[i] = provider_array[mask[i]]` field by field (expiries composed
with the ordinal-to-date conversion), whose valuation date is the market
context's date (`market.date`), and whose day-count convention is the
provider's. -/
theorem gather_semantics (dfo : Int → Date) (equity_types : List String)
    (market : ProcessedMarketData) (mask : List Nat)
    (hs : ∀ j ∈ mask, j < (market.volatility_surface equity_types).node_strikes.length)
    (hv : ∀ j ∈ mask, j < (market.volatility_surface equity_types).node_volatilities.length)
    (he : ∀ j ∈ mask, j < (market.volatility_surface equity_types).node_expiries.length) :
    ∃ vs, get_vol_surface dfo equity_types market mask = some vs ∧
      vs.valuation_date = market.date ∧
      vs.daycount_convention = (market.volatility_surface equity_types).daycount_convention ∧
      vs.strikes.length = mask.length ∧
      vs.volatilities.length = mask.length ∧
      vs.expiries.length = mask.length ∧
      ∀ i, i < mask.length → ∃ j, mask[i]? = some j ∧
        vs.strikes[i]? = (market.volatility_surface equity_types).node_strikes[j]? ∧
        vs.volatilities[i]? = (market.volatility_surface equity_types).node_volatilities[j]? ∧
        vs.expiries[i]? =
          ((market.volatility_surface equity_types).node_expiries[j]?).map dfo := by
  have h1 := gather_eq_some (market.volatility_surface equity_types).node_strikes mask hs
  have h2 := gather_eq_some (market.volatility_surface equity_types).node_volatilities mask hv
  have h3 := gather_eq_some (market.volatility_surface equity_types).node_expiries mask he
  refine ⟨{ valuation_date := market.date
            expiries := dates_from_ordinals dfo (mask.map
              (fun j => (market.volatility_surface equity_types).node_expiries.getD j default))
            strikes := mask.map
              (fun j => (market.volatility_surface equity_types).node_strikes.getD j default)
            volatilities := mask.map
              (fun j => (market.volatility_surface equity_types).node_volatilities.getD j default)
            daycount_convention := (market.volatility_surface equity_types).daycount_convention },
    ?_, rfl, rfl, List.length_map _ _, List.length_map _ _, ?_, ?_⟩
  · show (gather (market.volatility_surface equity_types).node_strikes mask).bind _ = _
    rw [h1, Option.some_bind, h2, Option.some_bind, h3, Option.map_some']
  · show (dates_from_ordinals dfo _).length = mask.length
    rw [dates_from_ordinals, List.length_map, List.length_map]
  · intro i hi
    refine ⟨mask[i], List.getElem?_eq_getElem hi, ?_, ?_, ?_⟩
    · rw [List.getElem?_map, List.getElem?_eq_getElem hi, Option.map_some',
        List.getD_eq_getElem _ default (hs _ (List.getElem_mem hi)),
        List.getElem?_eq_getElem (hs _ (List.getElem_mem hi))]
    · rw [List.getElem?_map, List.getElem?_eq_getElem hi, Option.map_some',
        List.getD_eq_getElem _ default (hv _ (List.getElem_mem hi)),
        List.getElem?_eq_getElem (hv _ (List.getElem_mem hi))]
    · show (dates_from_ordinals dfo _)[i]? = _
      rw [dates_from_ordinals, List.getElem?_map, List.getElem?_map,
        List.getElem?_eq_getElem hi, Option.map_some', Option.map_some',
        List.getD_eq_getElem _ default (he _ (List.getElem_mem hi)),
        List.getElem?_eq_getElem (he _ (List.getElem_mem hi)), Option.map_some']

/-- Witness for C8 on a concrete market with two node rows and a
four-instrument mask. -/
theorem gather_semantics_witness :
    ∃ vs, get_vol_surface dfoFix ["GOOG", "MSFT"] marketFix [0, 1, 1, 0] = some vs ∧
      vs.valuation_date = marketFix.date ∧
      vs.daycount_convention =
        (marketFix.volatility_surface ["GOOG", "MSFT"]).daycount_convention ∧
      vs.strikes.length = ([0, 1, 1, 0] : List Nat).length ∧
      vs.volatilities.length = ([0, 1, 1, 0] : List Nat).length ∧
      vs.expiries.length = ([0, 1, 1, 0] : List Nat).length ∧
      ∀ i, i < ([0, 1, 1, 0] : List Nat).length → ∃ j, ([0, 1, 1, 0] : List Nat)[i]? = some j ∧
        vs.strikes[i]? = (marketFix.volatility_surface ["GOOG", "MSFT"]).node_strikes[j]? ∧
        vs.volatilities[i]? =
          (marketFix.volatility_surface ["GOOG", "MSFT"]).node_volatilities[j]? ∧
        vs.expiries[i]? =
          ((marketFix.volatility_surface ["GOOG", "MSFT"]).node_expiries[j]?).map dfoFix :=
  gather_semantics dfoFix ["GOOG", "MSFT"] marketFix [0, 1, 1, 0]
    (by decide) (by decide) (by decide)

end TFQ
